import Mathlib

/-!
# Duplicate File Finder — verification of the worker pipeline

Shallow embedding of `src/workers/fileProcessor.ts`: the chunked
hashing-and-grouping Web Worker pipeline.  The worker receives a
`processFiles` message carrying an array of file descriptors, hashes each
file's byte buffer with SHA-256, reports per-file progress, collects
per-file failures, groups equal digests and posts the duplicate groups
back.  We model the observable behaviour as the list of messages the
worker posts (`postMessage` calls), in order.

The digest call (`crypto.subtle.digest`) is asynchronous and can fail,
so the pipeline is parameterised by a hashing oracle
`h : ProcessedFileData → Except String String` returning either the digest
string or the thrown error message; the concrete worker instantiates it
with the (total) SHA-256 hex digest, modelled bit-exactly below.
-/

set_option maxRecDepth 100000

namespace DupFinder

/-- `ProcessedFileData` (inbound descriptor): `{path, name, size, type, arrayBuffer}`.
The byte buffer is a list of byte values. -/
structure ProcessedFileData where
  path : String
  name : String
  size : Nat
  type : String
  arrayBuffer : List Nat
deriving Repr, DecidableEq

/-- `ProcessedFile`: a successfully hashed file `{path, hash, name, size, type}`. -/
structure ProcessedFile where
  path : String
  hash : String
  name : String
  size : Nat
  type : String
deriving Repr, DecidableEq, Inhabited

/-- `DuplicateGroup`: `{id, hash, files, size}` as posted in the `completed` message. -/
structure DuplicateGroup where
  id : String
  hash : String
  files : List ProcessedFile
  size : Nat
deriving Repr, DecidableEq

/-- `FileProcessingError`: `{path, name, error}` collected for a file whose
hashing threw. -/
structure FileProcessingError where
  path : String
  name : String
  error : String
deriving Repr, DecidableEq

/-- An outbound `postMessage` payload of the worker, tagged by its `type` field. -/
inductive Msg where
  | progress (index : Nat) (total : Nat) (fileName : String)
  | errors (errors : List FileProcessingError)
  | completed (groups : List DuplicateGroup)
  | error (error : String)
deriving Repr, DecidableEq

/-- An inbound message `{type, files}`. -/
structure InMsg where
  type : String
  files : List ProcessedFileData
deriving Repr, DecidableEq

/-- The hashing oracle: the outcome of `hashFile(arrayBuffer)` for one file —
`.ok digest`, or `.error message` when the digest computation throws. -/
def Hasher : Type := ProcessedFileData → Except String String

/-- `const CHUNK_SIZE = 50`. -/
def CHUNK_SIZE : Nat := 50

/-- The successfully hashed record pushed onto `results`:
`{path, hash, name, size, type}` copied from the descriptor. -/
def mkProcessedFile (f : ProcessedFileData) (hash : String) : ProcessedFile :=
  { path := f.path, hash := hash, name := f.name, size := f.size, type := f.type }

/-- The error record pushed onto `errors` when hashing file `f` throws `e`. -/
def mkError (f : ProcessedFileData) (e : String) : FileProcessingError :=
  { path := f.path, name := f.name, error := e }

/-- The inner `for (let j = 0; j < chunk.length; j++)` loop body over one chunk:
post a progress message (1-based absolute index `idx + 1`, total file count),
then try to hash; success appends to `results`, failure appends to `errors`.
Returns (posted messages, results, errors) for the chunk, in order. -/
def processChunk (h : Hasher) (total : Nat) (idx : Nat) :
    List ProcessedFileData → List Msg × List ProcessedFile × List FileProcessingError
  | [] => ([], [], [])
  | f :: rest =>
    let (msgs, results, errors) := processChunk h total (idx + 1) rest
    match h f with
    | .ok hash => (Msg.progress (idx + 1) total f.name :: msgs,
                   mkProcessedFile f hash :: results, errors)
    | .error e => (Msg.progress (idx + 1) total f.name :: msgs,
                   results, mkError f e :: errors)

/-- The outer `for (let i = 0; i < fileArray.length; i += CHUNK_SIZE)` loop:
slice off the next `K` files (`fileArray.slice(i, i + CHUNK_SIZE)`), run the
inner loop over the slice, then continue at offset `i + K`.  (The cooperative
`setTimeout(0)` yield between chunks has no observable message effect.)
The source's `K` is the constant `CHUNK_SIZE = 50`; with `K = 0` the source
would loop forever, so the model returns nothing in that (unreachable) case.
The recursion is driven by a structural fuel counter so that the kernel can
evaluate it; `processChunksAux` supplies fuel `fs.length`, which suffices for
every `K ≥ 1` because each iteration drops at least one file. -/
def processChunksF (h : Hasher) (total K : Nat) :
    Nat → Nat → List ProcessedFileData →
    List Msg × List ProcessedFile × List FileProcessingError
  | 0, _, _ => ([], [], [])
  | _ + 1, _, [] => ([], [], [])
  | fuel + 1, i, f :: rest =>
    let chunk := (f :: rest).take K
    let (m1, r1, e1) := processChunk h total i chunk
    let (m2, r2, e2) := processChunksF h total K fuel (i + K) ((f :: rest).drop K)
    (m1 ++ m2, r1 ++ r2, e1 ++ e2)

/-- The outer chunk loop started at offset `i` over the remaining files `fs`. -/
def processChunksAux (h : Hasher) (total K i : Nat) (fs : List ProcessedFileData) :
    List Msg × List ProcessedFile × List FileProcessingError :=
  processChunksF h total K fs.length i fs

/-- `processFilesWithHashesInChunks`: run the chunked loop over the whole
array, then — if any errors were collected — post a single
`{type: "errors", errors}` message.  Returns (all posted messages in order,
the `results` return value, the collected `errors`). -/
def processFilesWithHashesInChunks (h : Hasher) (K : Nat) (fileArray : List ProcessedFileData) :
    List Msg × List ProcessedFile × List FileProcessingError :=
  let (msgs, results, errors) := processChunksAux h fileArray.length K 0 fileArray
  (msgs ++ (if errors.length > 0 then [Msg.errors errors] else []), results, errors)

/-- `hashMap.get(file.hash)!.push(file)` / `hashMap.set(file.hash, [file])`:
insertion-ordered map update.  A JS `Map` keeps keys in first-insertion
order, so we model it as an association list: an existing key keeps its
position and gets the file appended; a new key goes to the back. -/
def addToMap (m : List (String × List ProcessedFile)) (f : ProcessedFile) :
    List (String × List ProcessedFile) :=
  match m with
  | [] => [(f.hash, [f])]
  | (k, g) :: rest =>
    if k = f.hash then (k, g ++ [f]) :: rest
    else (k, g) :: addToMap rest f

/-- The `for (const file of processedFiles)` grouping loop of `findDuplicates`. -/
def buildHashMap (processedFiles : List ProcessedFile) : List (String × List ProcessedFile) :=
  processedFiles.foldl addToMap []

/-- The `hashMap.forEach` finalisation loop: walk the map in insertion
order, keep entries with more than one file, and label them
`group-0`, `group-1`, … with the running counter `groupId`. -/
def finalizeGroups (gid : Nat) :
    List (String × List ProcessedFile) → List DuplicateGroup
  | [] => []
  | (hash, group) :: rest =>
    if group.length > 1 then
      { id := "group-" ++ toString gid, hash := hash, files := group,
        size := (group.headD default).size } :: finalizeGroups (gid + 1) rest
    else finalizeGroups gid rest

/-- `findDuplicates`: group the hashed files by digest, keep groups of
two or more, and label them sequentially. -/
def findDuplicates (processedFiles : List ProcessedFile) : List DuplicateGroup :=
  finalizeGroups 0 (buildHashMap processedFiles)

/-- `self.onmessage`: on a `processFiles` message, run the chunked pipeline
(emitting progress and, possibly, one errors message), then post the terminal
`{type: "completed", groups}` message.  Any other message type is ignored.
The `catch` branch posting `{type: "error"}` fires only when an exception
escapes the pipeline; per-file hashing failures are caught inside
`processFilesWithHashesInChunks`, and on a well-formed message no other
operation throws, so the branch is unreachable in the model. -/
def onmessage (h : Hasher) (K : Nat) (e : InMsg) : List Msg :=
  if e.type = "processFiles" then
    let (msgs, results, _) := processFilesWithHashesInChunks h K e.files
    msgs ++ [Msg.completed (findDuplicates results)]
  else []

/-! ## Digest Engine: SHA-256 and hex rendering

`hashFile` calls `crypto.subtle.digest('SHA-256', arrayBuffer)` over the
entire buffer and renders the digest bytes as lowercase hexadecimal via
`b.toString(16).padStart(2, '0')`.  We model the platform's SHA-256
primitive bit-exactly (FIPS 180-4) on byte lists, and the hex rendering
exactly as the source writes it. -/

/-- Truncation to a 32-bit word. -/
def w32 (x : Nat) : Nat := x % 4294967296

/-- 32-bit right rotation (operand assumed `< 2^32`). -/
def rotr32 (n x : Nat) : Nat := w32 ((x >>> n) ||| (x <<< (32 - n)))

/-- 32-bit bitwise complement (operand assumed `< 2^32`). -/
def not32 (x : Nat) : Nat := 4294967295 ^^^ x

/-- SHA-256 `Ch(x,y,z)`. -/
def ch (x y z : Nat) : Nat := (x &&& y) ^^^ (not32 x &&& z)

/-- SHA-256 `Maj(x,y,z)`. -/
def maj (x y z : Nat) : Nat := (x &&& y) ^^^ (x &&& z) ^^^ (y &&& z)

/-- SHA-256 `Σ0`. -/
def bigSigma0 (x : Nat) : Nat := rotr32 2 x ^^^ rotr32 13 x ^^^ rotr32 22 x

/-- SHA-256 `Σ1`. -/
def bigSigma1 (x : Nat) : Nat := rotr32 6 x ^^^ rotr32 11 x ^^^ rotr32 25 x

/-- SHA-256 `σ0`. -/
def smallSigma0 (x : Nat) : Nat := rotr32 7 x ^^^ rotr32 18 x ^^^ (x >>> 3)

/-- SHA-256 `σ1`. -/
def smallSigma1 (x : Nat) : Nat := rotr32 17 x ^^^ rotr32 19 x ^^^ (x >>> 10)

/-- The 64 SHA-256 round constants (FIPS 180-4 §4.2.2, written in decimal). -/
def sha256K : List Nat :=
  [1116352408, 1899447441, 3049323471, 3921009573, 961987163, 1508970993,
   2453635748, 2870763221, 3624381080, 310598401, 607225278, 1426881987,
   1925078388, 2162078206, 2614888103, 3248222580, 3835390401, 4022224774,
   264347078, 604807628, 770255983, 1249150122, 1555081692, 1996064986,
   2554220882, 2821834349, 2952996808, 3210313671, 3336571891, 3584528711,
   113926993, 338241895, 666307205, 773529912, 1294757372, 1396182291,
   1695183700, 1986661051, 2177026350, 2456956037, 2730485921, 2820302411,
   3259730800, 3345764771, 3516065817, 3600352804, 4094571909, 275423344,
   430227734, 506948616, 659060556, 883997877, 958139571, 1322822218,
   1537002063, 1747873779, 1955562222, 2024104815, 2227730452, 2361852424,
   2428436474, 2756734187, 3204031479, 3329325298]

/-- Big-endian byte rendering of `x` on `n` bytes. -/
def bytesBE (n x : Nat) : List Nat :=
  (List.range n).map (fun i => (x >>> (8 * (n - 1 - i))) % 256)

/-- SHA-256 padding: append `0x80`, zero bytes up to 56 mod 64, then the
64-bit big-endian bit length. -/
def padMessage (msg : List Nat) : List Nat :=
  let L := msg.length
  let k := (119 - L % 64) % 64
  msg ++ [0x80] ++ List.replicate k 0 ++ bytesBE 8 (L * 8)

/-- Pack bytes into big-endian 32-bit words (length is a multiple of 4). -/
def toWords : List Nat → List Nat
  | a :: b :: c :: d :: rest =>
    (a * 16777216 + b * 65536 + c * 256 + d) :: toWords rest
  | _ => []

/-- Split a word list into 16-word blocks (fuel-driven so the kernel can
evaluate it; `ws.length` fuel always suffices). -/
def toBlocksF : Nat → List Nat → List (List Nat)
  | 0, _ => []
  | _ + 1, [] => []
  | fuel + 1, w :: rest => (w :: rest).take 16 :: toBlocksF fuel ((w :: rest).drop 16)

/-- Split a word list into 16-word blocks. -/
def toBlocks (ws : List Nat) : List (List Nat) :=
  toBlocksF ws.length ws

/-- One message-schedule extension step: append
`σ1(w[t-2]) + w[t-7] + σ0(w[t-15]) + w[t-16]` (mod 2^32). -/
def stepSchedule (acc : List Nat) : List Nat :=
  let k := acc.length
  acc ++ [w32 (smallSigma1 (acc.getD (k - 2) 0) + acc.getD (k - 7) 0 +
               smallSigma0 (acc.getD (k - 15) 0) + acc.getD (k - 16) 0)]

/-- The full 64-entry message schedule of one block. -/
def fullSchedule (block : List Nat) : List Nat :=
  Nat.iterate stepSchedule 48 block

/-- The eight 32-bit working registers. -/
structure Hstate where
  a : Nat
  b : Nat
  c : Nat
  d : Nat
  e : Nat
  f : Nat
  g : Nat
  hh : Nat
deriving Repr, DecidableEq

/-- One SHA-256 compression round. -/
def sha256Round (s : Hstate) (kw : Nat × Nat) : Hstate :=
  let T1 := w32 (s.hh + bigSigma1 s.e + ch s.e s.f s.g + kw.1 + kw.2)
  let T2 := w32 (bigSigma0 s.a + maj s.a s.b s.c)
  ⟨w32 (T1 + T2), s.a, s.b, s.c, w32 (s.d + T1), s.e, s.f, s.g⟩

/-- Compress one 16-word block into the running hash state. -/
def compressBlock (H : Hstate) (block : List Nat) : Hstate :=
  let s := ((sha256K.zip (fullSchedule block)).foldl sha256Round H)
  ⟨w32 (s.a + H.a), w32 (s.b + H.b), w32 (s.c + H.c), w32 (s.d + H.d),
   w32 (s.e + H.e), w32 (s.f + H.f), w32 (s.g + H.g), w32 (s.hh + H.hh)⟩

/-- The SHA-256 initial hash value (FIPS 180-4 §5.3.3, written in decimal). -/
def sha256Init : Hstate :=
  ⟨1779033703, 3144134277, 1013904242, 2773480762,
   1359893119, 2600822924, 528734635, 1541459225⟩

/-- SHA-256 over a byte list: pad, split into blocks, compress, and emit
the final state as 32 big-endian digest bytes. -/
def sha256 (msg : List Nat) : List Nat :=
  let F := (toBlocks (toWords (padMessage msg))).foldl compressBlock sha256Init
  bytesBE 4 F.a ++ bytesBE 4 F.b ++ bytesBE 4 F.c ++ bytesBE 4 F.d ++
  bytesBE 4 F.e ++ bytesBE 4 F.f ++ bytesBE 4 F.g ++ bytesBE 4 F.hh

/-- The lowercase hexadecimal digit for `n < 16`. -/
def hexDigit (n : Nat) : Char :=
  if n < 10 then Char.ofNat (48 + n) else Char.ofNat (87 + n)

/-- JavaScript `b.toString(16)` for a byte value `b < 256`: one digit
below 16, two digits otherwise. -/
def jsToString16 (b : Nat) : String :=
  if b < 16 then String.mk [hexDigit b]
  else String.mk [hexDigit (b / 16), hexDigit (b % 16)]

/-- JavaScript `s.padStart(2, '0')`. -/
def padStart2 (s : String) : String :=
  if s.length < 2 then String.mk (List.replicate (2 - s.length) (Char.ofNat 48)) ++ s
  else s

/-- `hashFile`: SHA-256 the entire buffer and render each digest byte with
`b.toString(16).padStart(2, '0')`, joined. -/
def hashFile (arrayBuffer : List Nat) : String :=
  String.join ((sha256 arrayBuffer).map (fun b => padStart2 (jsToString16 b)))

/-- The hashing oracle of the real worker: `hashFile` never throws on an
in-memory buffer. -/
def workerHasher : Hasher := fun f => .ok (hashFile f.arrayBuffer)

/-- The lowercase hexadecimal alphabet. -/
def hexChars : List Char := "0123456789abcdef".data

/-- A run of the worker over a sequence of inbound messages.  The worker
keeps no state between `onmessage` invocations (its only module-level
binding is the constant `CHUNK_SIZE`), so the trace is the concatenation
of the per-message traces. -/
def runWorker (h : Hasher) (K : Nat) (ms : List InMsg) : List Msg :=
  (ms.map (onmessage h K)).flatten

/-! ## The untyped worker variant

The repository carries a second, untyped copy of the worker
(`fileProcessor.ts` lines 180–299).  Its logic is line-for-line the same;
the two variants differ only in `console.log` instrumentation, which posts
no messages.  We transcribe it independently in its own namespace and
prove the two transcriptions emit identical message sequences. -/

namespace Untyped

/-- Untyped variant of the inner chunk loop. -/
def processChunk (h : Hasher) (total : Nat) (idx : Nat) :
    List ProcessedFileData → List Msg × List ProcessedFile × List FileProcessingError
  | [] => ([], [], [])
  | f :: rest =>
    let (msgs, results, errors) := processChunk h total (idx + 1) rest
    match h f with
    | .ok hash => (Msg.progress (idx + 1) total f.name :: msgs,
                   mkProcessedFile f hash :: results, errors)
    | .error e => (Msg.progress (idx + 1) total f.name :: msgs,
                   results, mkError f e :: errors)

/-- Untyped variant of the outer chunk loop (same fuel-driven model). -/
def processChunksF (h : Hasher) (total K : Nat) :
    Nat → Nat → List ProcessedFileData →
    List Msg × List ProcessedFile × List FileProcessingError
  | 0, _, _ => ([], [], [])
  | _ + 1, _, [] => ([], [], [])
  | fuel + 1, i, f :: rest =>
    let chunk := (f :: rest).take K
    let (m1, r1, e1) := processChunk h total i chunk
    let (m2, r2, e2) := processChunksF h total K fuel (i + K) ((f :: rest).drop K)
    (m1 ++ m2, r1 ++ r2, e1 ++ e2)

/-- Untyped variant of `processFilesWithHashesInChunks`. -/
def processFilesWithHashesInChunks (h : Hasher) (K : Nat)
    (fileArray : List ProcessedFileData) :
    List Msg × List ProcessedFile × List FileProcessingError :=
  let (msgs, results, errors) :=
    processChunksF h fileArray.length K fileArray.length 0 fileArray
  (msgs ++ (if errors.length > 0 then [Msg.errors errors] else []), results, errors)

/-- Untyped variant of the `Map` update. -/
def addToMap (m : List (String × List ProcessedFile)) (f : ProcessedFile) :
    List (String × List ProcessedFile) :=
  match m with
  | [] => [(f.hash, [f])]
  | (k, g) :: rest =>
    if k = f.hash then (k, g ++ [f]) :: rest
    else (k, g) :: addToMap rest f

/-- Untyped variant of the grouping loop. -/
def buildHashMap (processedFiles : List ProcessedFile) :
    List (String × List ProcessedFile) :=
  processedFiles.foldl addToMap []

/-- Untyped variant of the finalisation loop. -/
def finalizeGroups (gid : Nat) :
    List (String × List ProcessedFile) → List DuplicateGroup
  | [] => []
  | (hash, group) :: rest =>
    if group.length > 1 then
      { id := "group-" ++ toString gid, hash := hash, files := group,
        size := (group.headD default).size } :: finalizeGroups (gid + 1) rest
    else finalizeGroups gid rest

/-- Untyped variant of `findDuplicates`. -/
def findDuplicates (processedFiles : List ProcessedFile) : List DuplicateGroup :=
  finalizeGroups 0 (buildHashMap processedFiles)

/-- Untyped variant of `self.onmessage`. -/
def onmessage (h : Hasher) (K : Nat) (e : InMsg) : List Msg :=
  if e.type = "processFiles" then
    let (msgs, results, _) := processFilesWithHashesInChunks h K e.files
    msgs ++ [Msg.completed (findDuplicates results)]
  else []

/-- Untyped variant of a worker run over an inbound message sequence. -/
def runWorker (h : Hasher) (K : Nat) (ms : List InMsg) : List Msg :=
  (ms.map (onmessage h K)).flatten

end Untyped

/-! ## Specification-side helper definitions

Reference descriptions of the pipeline outputs, written from the spec
wording, used to state the claims against the embedding above. -/

/-- The hashed record the pipeline keeps for file `f`, when its hashing
succeeds. -/
def okFile (h : Hasher) (f : ProcessedFileData) : Option ProcessedFile :=
  match h f with
  | .ok s => some (mkProcessedFile f s)
  | .error _ => none

/-- The error record the pipeline keeps for file `f`, when its hashing fails. -/
def errFile (h : Hasher) (f : ProcessedFileData) : Option FileProcessingError :=
  match h f with
  | .ok _ => none
  | .error e => some (mkError f e)

/-- The successfully hashed files, in input order. -/
def flatResults (h : Hasher) (files : List ProcessedFileData) : List ProcessedFile :=
  files.filterMap (okFile h)

/-- The recorded errors, one per failing file, in encounter (input) order. -/
def flatErrors (h : Hasher) (files : List ProcessedFileData) : List FileProcessingError :=
  files.filterMap (errFile h)

/-- The canonical progress sequence of a run: one event per file in input
order, 1-based indices, total equal to the file count. -/
def progressMsgs (files : List ProcessedFileData) : List Msg :=
  (files.enumFrom 1).map (fun p => Msg.progress p.1 files.length p.2.name)

/-- The aggregated errors event: absent when no error was recorded. -/
def errorsEvent (errs : List FileProcessingError) : List Msg :=
  if errs.length > 0 then [Msg.errors errs] else []

/-- Whether a message is a progress event. -/
def Msg.isProgress : Msg → Bool
  | .progress _ _ _ => true
  | _ => false

/-- Whether a message is the aggregated errors event. -/
def Msg.isErrors : Msg → Bool
  | .errors _ => true
  | _ => false

/-- Whether a message is terminal (`completed` or fatal `error`). -/
def Msg.isTerminal : Msg → Bool
  | .completed _ => true
  | .error _ => true
  | _ => false

/-- Whether a message is the fatal `error` message. -/
def Msg.isFatal : Msg → Bool
  | .error _ => true
  | _ => false

/-- The hashed files carrying the digest `x`, in input order. -/
def groupOf (rs : List ProcessedFile) (x : String) : List ProcessedFile :=
  rs.filter (fun f => decide (f.hash = x))

/-- Number of occurrences of the digest `x` among the hashed files. -/
def hashCount (rs : List ProcessedFile) (x : String) : Nat :=
  (groupOf rs x).length

/-- The paths listed inside the emitted duplicate groups. -/
def groupPaths (gs : List DuplicateGroup) : List String :=
  (gs.map (fun g => g.files.map (fun f => f.path))).flatten

/-- The paths of the recorded errors. -/
def errorPaths (es : List FileProcessingError) : List String :=
  es.map (fun e => e.path)

/-- The singleton files: successfully hashed files whose digest occurs
exactly once among the hashed files. -/
def singletonFiles (rs : List ProcessedFile) : List ProcessedFile :=
  rs.filter (fun f => decide (hashCount rs f.hash = 1))

/-- The paths of the singleton files. -/
def singletonPaths (rs : List ProcessedFile) : List String :=
  (singletonFiles rs).map (fun f => f.path)

/-- First-seen order: the distinct elements of a list, each at its first
occurrence, skipping those already `seen`. -/
def firstSeenFrom (seen : List String) : List String → List String
  | [] => []
  | x :: xs =>
    if x ∈ seen then firstSeenFrom seen xs
    else x :: firstSeenFrom (x :: seen) xs

/-- The position of the second occurrence of `x` in `hs` (0-based), when
it exists: the point at which a hash is first observed to have two members. -/
def secondOccurrencePos (hs : List String) (x : String) : Option Nat :=
  ((hs.enum.filter (fun p => decide (p.2 = x))).map Prod.fst)[1]?

/-- The ordering C5 asserts: the emitted groups are sorted by the position
at which each group hash's second member appears among the hashed files. -/
@[reducible] def orderedBySecondMember (rs : List ProcessedFile) (gs : List DuplicateGroup) : Prop :=
  gs.Pairwise (fun g1 g2 =>
    (secondOccurrencePos (rs.map (fun f => f.hash)) g1.hash).getD 0 <
    (secondOccurrencePos (rs.map (fun f => f.hash)) g2.hash).getD 0)

/-- A hashed file used in concrete examples. -/
def exFile (p hsh : String) : ProcessedFile :=
  { path := p, hash := hsh, name := p, size := 1, type := "t" }

/-- Hashed files with digests `a, b, b, a`: the hash `a` is seen first,
but its second member arrives after the second member of `b`. -/
def cexC5 : List ProcessedFile :=
  [exFile "f1" "a", exFile "f2" "b", exFile "f3" "b", exFile "f4" "a"]

/-- A concrete hashing oracle for witnesses: fails on files named `bad`,
otherwise returns the byte buffer rendered as a string (so equal contents
collide, unequal contents used in the examples do not). -/
def demoHasher : Hasher := fun f =>
  if f.name = "bad" then Except.error "boom" else Except.ok (toString f.arrayBuffer)

/-- An input descriptor used in concrete examples. -/
def exData (p : String) (bytes : List Nat) : ProcessedFileData :=
  { path := p, name := p, size := bytes.length, type := "t", arrayBuffer := bytes }

/-- An input descriptor whose hashing fails under `demoHasher`. -/
def exBad (p : String) (bytes : List Nat) : ProcessedFileData :=
  { path := p, name := "bad", size := bytes.length, type := "t", arrayBuffer := bytes }

/-- Concrete demo batch: two equal files, one unique file, one failing file. -/
def demoFiles : List ProcessedFileData :=
  [exData "p1" [0], exData "p2" [1], exBad "p3" [2], exData "p4" [0]]

/-- The demo `processFiles` message. -/
def demoMsg : InMsg := { type := "processFiles", files := demoFiles }

/-- `hashMap.get(k)`: the value stored at key `k`, walking the association
list in insertion order. -/
def mapFind : List (String × List ProcessedFile) → String → Option (List ProcessedFile)
  | [], _ => none
  | (k1, g) :: rest, k => if k1 = k then some g else mapFind rest k

/-! ## Flat characterisation of the chunked loop -/

theorem processChunk_msgs (h : Hasher) (total : Nat) :
    ∀ (fs : List ProcessedFileData) (i : Nat),
      (processChunk h total i fs).1 =
        (fs.enumFrom (i + 1)).map (fun p => Msg.progress p.1 total p.2.name)
  | [], _ => rfl
  | f :: rest, i => by
    have ih := processChunk_msgs h total rest (i + 1)
    simp only [processChunk, List.enumFrom, List.map_cons]
    cases h f <;> simp [ih]

theorem processChunk_results (h : Hasher) (total : Nat) :
    ∀ (fs : List ProcessedFileData) (i : Nat),
      (processChunk h total i fs).2.1 = flatResults h fs
  | [], _ => rfl
  | f :: rest, i => by
    have ih := processChunk_results h total rest (i + 1)
    simp only [processChunk, flatResults, List.filterMap_cons]
    cases hf : h f <;> simp [okFile, hf, ih, flatResults]

theorem processChunk_errors (h : Hasher) (total : Nat) :
    ∀ (fs : List ProcessedFileData) (i : Nat),
      (processChunk h total i fs).2.2 = flatErrors h fs
  | [], _ => rfl
  | f :: rest, i => by
    have ih := processChunk_errors h total rest (i + 1)
    simp only [processChunk, flatErrors, List.filterMap_cons]
    cases hf : h f <;> simp [errFile, hf, ih, flatErrors]

theorem processChunk_append (h : Hasher) (total : Nat) :
    ∀ (l1 l2 : List ProcessedFileData) (i : Nat),
      processChunk h total i (l1 ++ l2) =
        ((processChunk h total i l1).1 ++ (processChunk h total (i + l1.length) l2).1,
         (processChunk h total i l1).2.1 ++ (processChunk h total (i + l1.length) l2).2.1,
         (processChunk h total i l1).2.2 ++ (processChunk h total (i + l1.length) l2).2.2)
  | [], l2, i => by simp [processChunk]
  | f :: rest, l2, i => by
    have ih := processChunk_append h total rest l2 (i + 1)
    simp only [List.cons_append, processChunk, List.length_cons]
    cases h f <;> simp [ih, Nat.add_assoc, Nat.add_comm 1]

theorem processChunksF_eq_processChunk (h : Hasher) (total K : Nat) (hK : 1 ≤ K) :
    ∀ (fuel : Nat) (fs : List ProcessedFileData) (i : Nat), fs.length ≤ fuel →
      processChunksF h total K fuel i fs = processChunk h total i fs
  | 0, fs, i, hle => by
    have : fs = [] := List.eq_nil_of_length_eq_zero (Nat.le_zero.mp hle)
    subst this; rfl
  | fuel + 1, [], i, _ => rfl
  | fuel + 1, f :: rest, i, hle => by
    have hlen : ((f :: rest).drop K).length ≤ fuel := by
      simp only [List.length_drop, List.length_cons]
      simp only [List.length_cons] at hle
      omega
    have ih := processChunksF_eq_processChunk h total K hK fuel ((f :: rest).drop K)
      (i + K) hlen
    simp only [processChunksF, ih]
    rcases Nat.lt_or_ge (f :: rest).length K with hlt | hge
    · have htake : (f :: rest).take K = f :: rest := List.take_of_length_le (Nat.le_of_lt hlt)
      have hdrop : (f :: rest).drop K = [] := List.drop_eq_nil_of_le (Nat.le_of_lt hlt)
      simp [htake, hdrop, processChunk]
    · have hsplit := processChunk_append h total ((f :: rest).take K) ((f :: rest).drop K) i
      rw [List.take_append_drop] at hsplit
      have hlt : ((f :: rest).take K).length = K := List.length_take_of_le hge
      rw [hsplit, hlt]

theorem processChunksAux_eq_processChunk (h : Hasher) (total K i : Nat)
    (fs : List ProcessedFileData) (hK : 1 ≤ K) :
    processChunksAux h total K i fs = processChunk h total i fs :=
  processChunksF_eq_processChunk h total K hK fs.length fs i (Nat.le_refl _)

theorem processFiles_eq (h : Hasher) (K : Nat) (files : List ProcessedFileData)
    (hK : 1 ≤ K) :
    processFilesWithHashesInChunks h K files =
      (progressMsgs files ++ errorsEvent (flatErrors h files),
       flatResults h files, flatErrors h files) := by
  unfold processFilesWithHashesInChunks
  rw [processChunksAux_eq_processChunk h files.length K 0 files hK]
  simp only [processChunk_msgs, processChunk_results, processChunk_errors,
    progressMsgs, errorsEvent]

theorem onmessage_processFiles (h : Hasher) (K : Nat) (files : List ProcessedFileData)
    (hK : 1 ≤ K) :
    onmessage h K { type := "processFiles", files := files } =
      progressMsgs files ++ errorsEvent (flatErrors h files) ++
        [Msg.completed (findDuplicates (flatResults h files))] := by
  simp [onmessage, processFiles_eq h K files hK]

/-! ## Equivalence of the two worker variants -/

theorem untyped_processChunk_eq (h : Hasher) (total : Nat) :
    ∀ (fs : List ProcessedFileData) (i : Nat),
      Untyped.processChunk h total i fs = processChunk h total i fs
  | [], _ => rfl
  | f :: rest, i => by
    have ih := untyped_processChunk_eq h total rest (i + 1)
    simp only [Untyped.processChunk, processChunk, ih]

theorem untyped_processChunksF_eq (h : Hasher) (total K : Nat) :
    ∀ (fuel i : Nat) (fs : List ProcessedFileData),
      Untyped.processChunksF h total K fuel i fs = processChunksF h total K fuel i fs
  | 0, _, _ => rfl
  | _ + 1, _, [] => rfl
  | fuel + 1, i, f :: rest => by
    have ih := untyped_processChunksF_eq h total K fuel (i + K) ((f :: rest).drop K)
    simp only [Untyped.processChunksF, processChunksF, ih, untyped_processChunk_eq]

theorem untyped_addToMap_eq :
    ∀ (m : List (String × List ProcessedFile)) (f : ProcessedFile),
      Untyped.addToMap m f = addToMap m f
  | [], _ => rfl
  | (k, g) :: rest, f => by
    have ih := untyped_addToMap_eq rest f
    simp only [Untyped.addToMap, addToMap, ih]

theorem untyped_buildHashMap_eq (fs : List ProcessedFile) :
    Untyped.buildHashMap fs = buildHashMap fs := by
  unfold Untyped.buildHashMap buildHashMap
  have aux : ∀ (fs : List ProcessedFile) (m : List (String × List ProcessedFile)),
      fs.foldl Untyped.addToMap m = fs.foldl addToMap m := by
    intro fs
    induction fs with
    | nil => intro m; rfl
    | cons f rest ih =>
      intro m
      simp only [List.foldl_cons, untyped_addToMap_eq, ih]
  exact aux fs []

theorem untyped_finalizeGroups_eq :
    ∀ (m : List (String × List ProcessedFile)) (gid : Nat),
      Untyped.finalizeGroups gid m = finalizeGroups gid m
  | [], _ => rfl
  | (k, g) :: rest, gid => by
    have ih1 := untyped_finalizeGroups_eq rest (gid + 1)
    have ih2 := untyped_finalizeGroups_eq rest gid
    simp only [Untyped.finalizeGroups, finalizeGroups, ih1, ih2]

theorem untyped_findDuplicates_eq (fs : List ProcessedFile) :
    Untyped.findDuplicates fs = findDuplicates fs := by
  simp [Untyped.findDuplicates, findDuplicates, untyped_buildHashMap_eq,
    untyped_finalizeGroups_eq]

theorem untyped_onmessage_eq (h : Hasher) (K : Nat) (e : InMsg) :
    Untyped.onmessage h K e = onmessage h K e := by
  simp only [Untyped.onmessage, onmessage, Untyped.processFilesWithHashesInChunks,
    processFilesWithHashesInChunks, processChunksAux, untyped_processChunksF_eq,
    untyped_findDuplicates_eq]

/-! ## Message-kind helper lemmas -/

theorem progressMsgs_filter_isProgress (files : List ProcessedFileData) :
    (progressMsgs files).filter Msg.isProgress = progressMsgs files := by
  apply List.filter_eq_self.mpr
  intro m hm
  simp only [progressMsgs, List.mem_map] at hm
  obtain ⟨p, _, rfl⟩ := hm
  rfl

theorem progressMsgs_filter_isErrors (files : List ProcessedFileData) :
    (progressMsgs files).filter Msg.isErrors = [] := by
  apply List.filter_eq_nil_iff.mpr
  intro m hm
  simp only [progressMsgs, List.mem_map] at hm
  obtain ⟨p, _, rfl⟩ := hm
  simp [Msg.isErrors]

theorem progressMsgs_filter_isTerminal (files : List ProcessedFileData) :
    (progressMsgs files).filter Msg.isTerminal = [] := by
  apply List.filter_eq_nil_iff.mpr
  intro m hm
  simp only [progressMsgs, List.mem_map] at hm
  obtain ⟨p, _, rfl⟩ := hm
  simp [Msg.isTerminal]

theorem progressMsgs_filter_isFatal (files : List ProcessedFileData) :
    (progressMsgs files).filter Msg.isFatal = [] := by
  apply List.filter_eq_nil_iff.mpr
  intro m hm
  simp only [progressMsgs, List.mem_map] at hm
  obtain ⟨p, _, rfl⟩ := hm
  simp [Msg.isFatal]

theorem errorsEvent_filter_isProgress (errs : List FileProcessingError) :
    (errorsEvent errs).filter Msg.isProgress = [] := by
  unfold errorsEvent
  split <;> simp [Msg.isProgress]

theorem errorsEvent_filter_isErrors (errs : List FileProcessingError) :
    (errorsEvent errs).filter Msg.isErrors = errorsEvent errs := by
  unfold errorsEvent
  split <;> simp [Msg.isErrors]

theorem errorsEvent_filter_isTerminal (errs : List FileProcessingError) :
    (errorsEvent errs).filter Msg.isTerminal = [] := by
  unfold errorsEvent
  split <;> simp [Msg.isTerminal]

theorem errorsEvent_filter_isFatal (errs : List FileProcessingError) :
    (errorsEvent errs).filter Msg.isFatal = [] := by
  unfold errorsEvent
  split <;> simp [Msg.isFatal]

/-! ## Correctness of the insertion-ordered hash map -/

theorem mapFind_addToMap_self (f : ProcessedFile) :
    ∀ m, mapFind (addToMap m f) f.hash = some ((mapFind m f.hash).getD [] ++ [f])
  | [] => by simp [addToMap, mapFind]
  | (k, g) :: rest => by
    by_cases hk : k = f.hash
    · subst hk
      simp [addToMap, mapFind]
    · simp [addToMap, hk, mapFind, mapFind_addToMap_self f rest]

theorem mapFind_addToMap_other (f : ProcessedFile) (k : String) (hk : k ≠ f.hash) :
    ∀ m, mapFind (addToMap m f) k = mapFind m k
  | [] => by
    have hfk : ¬ f.hash = k := fun he => hk he.symm
    simp [addToMap, mapFind, hfk]
  | (k1, g) :: rest => by
    have hfk : ¬ f.hash = k := fun he => hk he.symm
    by_cases hk1 : k1 = f.hash
    · subst hk1
      simp [addToMap, mapFind, hfk]
    · simp only [addToMap, if_neg hk1, mapFind]
      by_cases hk2 : k1 = k
      · simp [hk2]
      · simp [hk2, mapFind_addToMap_other f k hk rest]

theorem mapFind_foldl (k : String) :
    ∀ (fs : List ProcessedFile) (m : List (String × List ProcessedFile)),
      mapFind (fs.foldl addToMap m) k =
        (mapFind m k).elim
          (if groupOf fs k = [] then none else some (groupOf fs k))
          (fun g => some (g ++ groupOf fs k))
  | [], m => by
    rcases hm : mapFind m k with _ | g <;> simp [hm, groupOf]
  | f :: rest, m => by
    have ih := mapFind_foldl k rest (addToMap m f)
    simp only [List.foldl_cons] at ih ⊢
    rw [ih]
    by_cases hk : k = f.hash
    · subst hk
      rw [mapFind_addToMap_self f m]
      have hcons : groupOf (f :: rest) f.hash = f :: groupOf rest f.hash := by
        simp [groupOf]
      rcases hm : mapFind m f.hash with _ | g
      · simp [hm, hcons]
      · simp [hm, hcons]
    · rw [mapFind_addToMap_other f k hk m]
      have hfk : ¬ f.hash = k := fun he => hk he.symm
      have hcons : groupOf (f :: rest) k = groupOf rest k := by
        simp [groupOf, hfk]
      rw [hcons]

theorem mapFind_buildHashMap (rs : List ProcessedFile) (k : String) :
    mapFind (buildHashMap rs) k =
      if groupOf rs k = [] then none else some (groupOf rs k) := by
  have := mapFind_foldl k rs []
  simpa [buildHashMap, mapFind] using this

theorem mem_of_mapFind :
    ∀ (m : List (String × List ProcessedFile)) (k : String) (g : List ProcessedFile),
      mapFind m k = some g → (k, g) ∈ m
  | [], k, g => by simp [mapFind]
  | (k1, g1) :: rest, k, g => by
    simp only [mapFind]
    by_cases hk : k1 = k
    · rw [if_pos hk]
      intro he
      have hg : g1 = g := Option.some.inj he
      subst hg
      subst hk
      exact List.mem_cons_self _ _
    · rw [if_neg hk]
      intro hfind
      exact List.mem_cons.mpr (Or.inr (mem_of_mapFind rest k g hfind))

theorem mapFind_of_mem_nodup :
    ∀ (m : List (String × List ProcessedFile)), (m.map Prod.fst).Nodup →
      ∀ (k : String) (g : List ProcessedFile), (k, g) ∈ m → mapFind m k = some g
  | [], _, k, g => by simp
  | (k1, g1) :: rest, hnd, k, g => by
    simp only [List.map_cons, List.nodup_cons] at hnd
    intro hmem
    rcases List.mem_cons.mp hmem with heq | htail
    · cases heq
      simp [mapFind]
    · have hk1 : k1 ≠ k := by
        intro he
        subst he
        exact hnd.1 (List.mem_map_of_mem Prod.fst htail)
      simp only [mapFind, if_neg hk1]
      exact mapFind_of_mem_nodup rest hnd.2 k g htail

theorem mapFind_isSome_iff :
    ∀ (m : List (String × List ProcessedFile)) (k : String),
      (mapFind m k).isSome ↔ k ∈ m.map Prod.fst
  | [], k => by simp [mapFind]
  | (k1, g1) :: rest, k => by
    by_cases hk : k1 = k
    · subst hk
      simp [mapFind]
    · have hk2 : ¬ k = k1 := fun he => hk he.symm
      simp [mapFind, hk, hk2, mapFind_isSome_iff rest k]

theorem keys_addToMap_mem (f : ProcessedFile) :
    ∀ m, f.hash ∈ m.map Prod.fst →
      (addToMap m f).map Prod.fst = m.map Prod.fst
  | [], hmem => by simp at hmem
  | (k, g) :: rest, hmem => by
    by_cases hk : k = f.hash
    · subst hk
      simp [addToMap]
    · simp only [List.map_cons] at hmem
      rcases List.mem_cons.mp hmem with heq | htail
      · exact absurd heq.symm hk
      · simp [addToMap, hk, keys_addToMap_mem f rest htail]

theorem keys_addToMap_not_mem (f : ProcessedFile) :
    ∀ m, f.hash ∉ m.map Prod.fst →
      (addToMap m f).map Prod.fst = m.map Prod.fst ++ [f.hash]
  | [], _ => by simp [addToMap]
  | (k, g) :: rest, hmem => by
    simp only [List.map_cons, List.mem_cons] at hmem
    push_neg at hmem
    have hk : k ≠ f.hash := fun he => hmem.1 he.symm
    simp [addToMap, hk, keys_addToMap_not_mem f rest hmem.2]

theorem keys_foldl_nodup :
    ∀ (fs : List ProcessedFile) (m : List (String × List ProcessedFile)),
      (m.map Prod.fst).Nodup → ((fs.foldl addToMap m).map Prod.fst).Nodup
  | [], m, hnd => hnd
  | f :: rest, m, hnd => by
    simp only [List.foldl_cons]
    apply keys_foldl_nodup rest
    by_cases hmem : f.hash ∈ m.map Prod.fst
    · rw [keys_addToMap_mem f m hmem]
      exact hnd
    · rw [keys_addToMap_not_mem f m hmem]
      refine List.Nodup.append hnd (List.nodup_singleton _) ?_
      intro a ha hb
      simp only [List.mem_singleton] at hb
      subst hb
      exact hmem ha

theorem buildHashMap_keys_nodup (rs : List ProcessedFile) :
    ((buildHashMap rs).map Prod.fst).Nodup :=
  keys_foldl_nodup rs [] (by simp)

theorem buildHashMap_value_eq (rs : List ProcessedFile) (k : String)
    (g : List ProcessedFile) (hmem : (k, g) ∈ buildHashMap rs) :
    g = groupOf rs k ∧ g ≠ [] := by
  have hfind := mapFind_of_mem_nodup (buildHashMap rs) (buildHashMap_keys_nodup rs) k g hmem
  rw [mapFind_buildHashMap] at hfind
  by_cases hg : groupOf rs k = []
  · rw [if_pos hg] at hfind
    exact absurd hfind (by simp)
  · rw [if_neg hg] at hfind
    have := Option.some.injEq .. ▸ hfind
    simp only [Option.some.injEq] at hfind
    exact ⟨hfind.symm, hfind ▸ hg⟩

theorem firstSeenFrom_congr :
    ∀ (l : List String) (s1 s2 : List String), (∀ x, x ∈ s1 ↔ x ∈ s2) →
      firstSeenFrom s1 l = firstSeenFrom s2 l
  | [], _, _, _ => rfl
  | x :: xs, s1, s2, hiff => by
    by_cases hx : x ∈ s1
    · simp only [firstSeenFrom, if_pos hx, if_pos ((hiff x).mp hx)]
      exact firstSeenFrom_congr xs s1 s2 hiff
    · have hx2 : x ∉ s2 := fun hc => hx ((hiff x).mpr hc)
      simp only [firstSeenFrom, if_neg hx, if_neg hx2]
      refine congrArg _ (firstSeenFrom_congr xs (x :: s1) (x :: s2) ?_)
      intro y
      simp [hiff y]

theorem keys_foldl_firstSeen :
    ∀ (fs : List ProcessedFile) (m : List (String × List ProcessedFile)),
      (fs.foldl addToMap m).map Prod.fst =
        m.map Prod.fst ++ firstSeenFrom (m.map Prod.fst) (fs.map (fun f => f.hash))
  | [], m => by simp [firstSeenFrom]
  | f :: rest, m => by
    simp only [List.foldl_cons, List.map_cons]
    by_cases hmem : f.hash ∈ m.map Prod.fst
    · rw [keys_foldl_firstSeen rest (addToMap m f), keys_addToMap_mem f m hmem]
      simp [firstSeenFrom, hmem]
    · rw [keys_foldl_firstSeen rest (addToMap m f), keys_addToMap_not_mem f m hmem]
      simp only [firstSeenFrom, if_neg hmem]
      rw [firstSeenFrom_congr (rest.map (fun f => f.hash))
        (m.map Prod.fst ++ [f.hash]) (f.hash :: m.map Prod.fst) (by intro y; simp; tauto)]
      simp

theorem buildHashMap_keys (rs : List ProcessedFile) :
    (buildHashMap rs).map Prod.fst = firstSeenFrom [] (rs.map (fun f => f.hash)) := by
  have := keys_foldl_firstSeen rs []
  simpa [buildHashMap] using this

/-! ## Correctness of the finalisation loop -/

theorem finalizeGroups_hash_files :
    ∀ (m : List (String × List ProcessedFile)) (gid : Nat),
      (finalizeGroups gid m).map (fun g => (g.hash, g.files)) =
        m.filter (fun p => decide (1 < p.2.length))
  | [], _ => rfl
  | (k, g) :: rest, gid => by
    by_cases hlen : g.length > 1
    · simp only [finalizeGroups, if_pos hlen, List.map_cons,
        finalizeGroups_hash_files rest (gid + 1), List.filter_cons]
      simp [hlen]
    · simp only [finalizeGroups, if_neg hlen, finalizeGroups_hash_files rest gid,
        List.filter_cons]
      simp [hlen]

theorem finalizeGroups_ids :
    ∀ (m : List (String × List ProcessedFile)) (gid : Nat),
      (finalizeGroups gid m).map (fun g => g.id) =
        (List.range (finalizeGroups gid m).length).map
          (fun n => "group-" ++ toString (gid + n))
  | [], _ => rfl
  | (k, g) :: rest, gid => by
    by_cases hlen : g.length > 1
    · simp only [finalizeGroups, if_pos hlen, List.map_cons, List.length_cons,
        List.range_succ_eq_map, List.map_map]
      refine congrArg₂ _ (by simp) ?_
      rw [finalizeGroups_ids rest (gid + 1)]
      apply List.map_congr_left
      intro n _
      simp only [Function.comp]
      refine congrArg _ (congrArg _ ?_)
      omega
    · simp only [finalizeGroups, if_neg hlen]
      exact finalizeGroups_ids rest gid

theorem mem_findDuplicates (rs : List ProcessedFile) (g : DuplicateGroup)
    (hg : g ∈ findDuplicates rs) :
    (g.hash, g.files) ∈ buildHashMap rs ∧ 1 < g.files.length := by
  have hmem : (g.hash, g.files) ∈
      (findDuplicates rs).map (fun g => (g.hash, g.files)) :=
    List.mem_map_of_mem _ hg
  rw [findDuplicates, finalizeGroups_hash_files] at hmem
  have := List.mem_filter.mp hmem
  exact ⟨this.1, by simpa using this.2⟩

/-! ## Digest lemmas -/

theorem padStart2_jsToString16 (b : Nat) :
    padStart2 (jsToString16 b) = String.mk [hexDigit (b / 16), hexDigit (b % 16)] := by
  by_cases hb : b < 16
  · have hdiv : b / 16 = 0 := Nat.div_eq_of_lt hb
    have hmod : b % 16 = b := Nat.mod_eq_of_lt hb
    rw [jsToString16, if_pos hb, padStart2]
    rw [hdiv, hmod]
    rfl
  · rw [jsToString16, if_neg hb, padStart2]
    rfl

theorem bytesBE_length (n x : Nat) : (bytesBE n x).length = n := by
  simp [bytesBE]

theorem bytesBE_lt (n x : Nat) : ∀ b ∈ bytesBE n x, b < 256 := by
  intro b hb
  simp only [bytesBE, List.mem_map] at hb
  obtain ⟨i, _, rfl⟩ := hb
  exact Nat.mod_lt _ (by norm_num)

theorem sha256_length (msg : List Nat) : (sha256 msg).length = 32 := by
  simp [sha256, bytesBE_length]

theorem sha256_bytes_lt (msg : List Nat) : ∀ b ∈ sha256 msg, b < 256 := by
  intro b hb
  simp only [sha256, List.append_assoc, List.mem_append] at hb
  rcases hb with hb | hb | hb | hb | hb | hb | hb | hb <;>
    exact bytesBE_lt _ _ b hb

theorem join_foldl_data (L : List String) :
    ∀ s : String, (L.foldl (fun r t => r ++ t) s).data =
      s.data ++ (L.map String.data).flatten := by
  induction L with
  | nil => intro s; simp
  | cons a rest ih =>
    intro s
    simp only [List.foldl_cons, ih, List.map_cons, List.flatten_cons,
      String.data_append, List.append_assoc]

theorem join_data (L : List String) :
    (String.join L).data = (L.map String.data).flatten := by
  have := join_foldl_data L ""
  simpa [String.join] using this

theorem join_length_two (L : List String) (hL : ∀ s ∈ L, s.length = 2) :
    (String.join L).length = 2 * L.length := by
  have hflat : ∀ (M : List String), (∀ s ∈ M, s.length = 2) →
      ((M.map String.data).flatten).length = 2 * M.length := by
    intro M
    induction M with
    | nil => intro _; simp
    | cons a rest ih =>
      intro hM
      simp only [List.map_cons, List.flatten_cons, List.length_append, List.length_cons]
      have ha : a.data.length = 2 := hM a (List.mem_cons_self ..)
      rw [ha, ih (fun s hs => hM s (List.mem_cons.mpr (Or.inr hs)))]
      ring
  have hlen : (String.join L).length = (String.join L).data.length := rfl
  rw [hlen, join_data L]
  exact hflat L hL

theorem hexDigit_mem_hexChars : ∀ n, n < 16 → hexDigit n ∈ hexChars := by
  decide

/-! ## Claim theorems -/

/-- C2: for every input message, the full outbound trace — in particular the
set of duplicate groups in the `completed` message, even including the `id`
labels — is identical for every chunk size `K ≥ 1`; chunking only moves the
cooperative yield points, which post no messages. -/
theorem chunk_size_invariance (h : Hasher) (K1 K2 : Nat) (e : InMsg)
    (h1 : 1 ≤ K1) (h2 : 1 ≤ K2) :
    onmessage h K1 e = onmessage h K2 e := by
  by_cases he : e.type = "processFiles"
  · simp only [onmessage, he, if_pos, processFiles_eq _ _ _ h1, processFiles_eq _ _ _ h2]
  · simp [onmessage, he]

/-- Witness for C2 at chunk sizes 1 and 3 over the demo batch. -/
theorem chunk_size_invariance_witness :
    (1 ≤ 1 ∧ 1 ≤ 3) ∧
      onmessage demoHasher 1 demoMsg = onmessage demoHasher 3 demoMsg :=
  ⟨by decide, chunk_size_invariance demoHasher 1 3 demoMsg (by decide) (by decide)⟩

/-- C3: a run over `N` files emits exactly the progress events with indices
`1, 2, …, N` in that order, each carrying `total = N` and the file name, and
all of them precede every other outbound message; the sequence does not
depend on the hashing oracle, hence not on whether any file's hashing
succeeds or fails.  (In the source the progress post also precedes the
digest call of its file inside the loop body.) -/
theorem progress_events_exact (h : Hasher) (K : Nat) (files : List ProcessedFileData)
    (hK : 1 ≤ K) :
    (onmessage h K { type := "processFiles", files := files }).filter Msg.isProgress =
        (files.enumFrom 1).map (fun p => Msg.progress p.1 files.length p.2.name) ∧
      ∃ rest, onmessage h K { type := "processFiles", files := files } =
        ((files.enumFrom 1).map (fun p => Msg.progress p.1 files.length p.2.name)) ++ rest ∧
        rest.filter Msg.isProgress = [] := by
  rw [onmessage_processFiles h K files hK]
  refine ⟨?_, ?_⟩
  · simp only [List.filter_append, progressMsgs_filter_isProgress,
      errorsEvent_filter_isProgress]
    simp [progressMsgs, Msg.isProgress]
  · refine ⟨errorsEvent (flatErrors h files) ++
      [Msg.completed (findDuplicates (flatResults h files))], by simp [progressMsgs], ?_⟩
    simp [List.filter_append, errorsEvent_filter_isProgress, Msg.isProgress]

/-- Witness for C3 over the demo batch (one failing file included). -/
theorem progress_events_exact_witness :
    1 ≤ 50 ∧
      ((onmessage demoHasher 50 { type := "processFiles", files := demoFiles }).filter
          Msg.isProgress =
        (demoFiles.enumFrom 1).map
          (fun p => Msg.progress p.1 demoFiles.length p.2.name) ∧
      ∃ rest, onmessage demoHasher 50 { type := "processFiles", files := demoFiles } =
        ((demoFiles.enumFrom 1).map
          (fun p => Msg.progress p.1 demoFiles.length p.2.name)) ++ rest ∧
        rest.filter Msg.isProgress = []) :=
  ⟨by decide, progress_events_exact demoHasher 50 demoFiles (by decide)⟩

/-- C6: the aggregated errors event appears in a run's trace iff at least
one file's hashing failed; when it appears it appears exactly once, holds
exactly one `FileProcessingError` per failing file in encounter (input)
order — `files.filterMap (errFile h)` — and precedes the terminal
`completed` message. -/
theorem errors_event_iff (h : Hasher) (K : Nat) (files : List ProcessedFileData)
    (hK : 1 ≤ K) :
    (onmessage h K { type := "processFiles", files := files }).filter Msg.isErrors =
        (if files.filterMap (errFile h) = [] then []
         else [Msg.errors (files.filterMap (errFile h))]) ∧
      (files.filterMap (errFile h) ≠ [] →
        onmessage h K { type := "processFiles", files := files } =
          progressMsgs files ++
            [Msg.errors (files.filterMap (errFile h)),
             Msg.completed (findDuplicates (flatResults h files))]) := by
  rw [onmessage_processFiles h K files hK]
  constructor
  · simp only [List.filter_append, progressMsgs_filter_isErrors,
      errorsEvent_filter_isErrors]
    simp only [flatErrors, errorsEvent]
    split
    · next hgt =>
      have : ¬ files.filterMap (errFile h) = [] := by
        intro hnil
        rw [hnil] at hgt
        simp at hgt
      simp [this, Msg.isErrors]
    · next hgt =>
      have : files.filterMap (errFile h) = [] := by
        cases hfm : files.filterMap (errFile h) with
        | nil => rfl
        | cons a l => rw [hfm] at hgt; simp at hgt
      simp [this, Msg.isErrors]
  · intro hne
    have : (files.filterMap (errFile h)).length > 0 := by
      cases hfm : files.filterMap (errFile h) with
      | nil => exact absurd hfm hne
      | cons a l => simp
    simp [flatErrors, errorsEvent, this]

/-- Witness for C6 over the demo batch, whose file `p3` fails to hash. -/
theorem errors_event_iff_witness :
    1 ≤ 50 ∧
      ((onmessage demoHasher 50 { type := "processFiles", files := demoFiles }).filter
          Msg.isErrors =
        (if demoFiles.filterMap (errFile demoHasher) = [] then []
         else [Msg.errors (demoFiles.filterMap (errFile demoHasher))]) ∧
      (demoFiles.filterMap (errFile demoHasher) ≠ [] →
        onmessage demoHasher 50 { type := "processFiles", files := demoFiles } =
          progressMsgs demoFiles ++
            [Msg.errors (demoFiles.filterMap (errFile demoHasher)),
             Msg.completed (findDuplicates (flatResults demoHasher demoFiles))])) :=
  ⟨by decide, errors_event_iff demoHasher 50 demoFiles (by decide)⟩

/-- C7: each `processFiles` run posts exactly one terminal message — the
`completed` message, which comes last, with no terminal message before it —
and never the fatal `error` message: per-file hashing failures are caught
inside the chunk loop and do not reach the `catch` branch. -/
theorem terminal_exclusivity (h : Hasher) (K : Nat) (files : List ProcessedFileData)
    (hK : 1 ≤ K) :
    (∃ pre, onmessage h K { type := "processFiles", files := files } =
        pre ++ [Msg.completed (findDuplicates (flatResults h files))] ∧
        pre.filter Msg.isTerminal = []) ∧
      (onmessage h K { type := "processFiles", files := files }).filter Msg.isFatal = [] := by
  rw [onmessage_processFiles h K files hK]
  constructor
  · refine ⟨progressMsgs files ++ errorsEvent (flatErrors h files), by simp, ?_⟩
    simp [List.filter_append, progressMsgs_filter_isTerminal, errorsEvent_filter_isTerminal]
  · simp [List.filter_append, progressMsgs_filter_isFatal, errorsEvent_filter_isFatal,
      Msg.isFatal]

/-- Witness for C7 over the demo batch. -/
theorem terminal_exclusivity_witness :
    1 ≤ 50 ∧
      ((∃ pre, onmessage demoHasher 50 { type := "processFiles", files := demoFiles } =
          pre ++ [Msg.completed (findDuplicates (flatResults demoHasher demoFiles))] ∧
          pre.filter Msg.isTerminal = []) ∧
        (onmessage demoHasher 50 { type := "processFiles", files := demoFiles }).filter
          Msg.isFatal = []) :=
  ⟨by decide, terminal_exclusivity demoHasher 50 demoFiles (by decide)⟩

/-- C9: on every inbound message sequence (any hashing oracle, any chunk
size) the typed and the untyped worker variants post identical outbound
message sequences; they differ only in console instrumentation, which posts
nothing. -/
theorem variants_equivalent (h : Hasher) (K : Nat) (ms : List InMsg) :
    Untyped.runWorker h K ms = runWorker h K ms := by
  unfold Untyped.runWorker runWorker
  induction ms with
  | nil => rfl
  | cons m rest ih =>
    simp only [List.map_cons, List.flatten_cons, untyped_onmessage_eq]
    simp only [List.map] at ih
    rw [ih]

/-- C10: an inbound message whose `type` is not `processFiles` produces no
outbound message and no processing, and — the worker keeping no state
between messages — leaves the behaviour on every subsequent message
sequence unchanged. -/
theorem ignores_other_messages (h : Hasher) (K : Nat) (m : InMsg)
    (hm : m.type ≠ "processFiles") :
    onmessage h K m = [] ∧
      ∀ rest : List InMsg, runWorker h K (m :: rest) = runWorker h K rest := by
  constructor
  · simp [onmessage, hm]
  · intro rest
    simp [runWorker, onmessage, hm]

/-- Witness for C10 at a concrete non-`processFiles` message. -/
theorem ignores_other_messages_witness :
    ({ type := "ping", files := demoFiles } : InMsg).type ≠ "processFiles" ∧
      (onmessage demoHasher 50 { type := "ping", files := demoFiles } = [] ∧
        ∀ rest : List InMsg,
          runWorker demoHasher 50 ({ type := "ping", files := demoFiles } :: rest) =
            runWorker demoHasher 50 rest) :=
  ⟨by decide, ignores_other_messages demoHasher 50 _ (by decide)⟩

theorem buildHashMap_value_length (rs : List ProcessedFile) :
    ∀ p ∈ buildHashMap rs, p.2.length = hashCount rs p.1 := by
  intro p hp
  have hmem : (p.1, p.2) ∈ buildHashMap rs := by
    rw [Prod.mk.eta]
    exact hp
  have := (buildHashMap_value_eq rs p.1 p.2 hmem).1
  rw [hashCount, this]

theorem keys_filter_of_len (rs : List ProcessedFile) :
    ∀ (m : List (String × List ProcessedFile)),
      (∀ p ∈ m, p.2.length = hashCount rs p.1) →
      (m.filter (fun p => decide (1 < p.2.length))).map Prod.fst =
        (m.map Prod.fst).filter (fun k => decide (1 < hashCount rs k))
  | [], _ => rfl
  | p :: rest, hlen => by
    have hp := hlen p (List.mem_cons_self ..)
    have ih := keys_filter_of_len rs rest
      (fun q hq => hlen q (List.mem_cons.mpr (Or.inr hq)))
    by_cases hgt : 1 < p.2.length
    · have hc : 1 < hashCount rs p.1 := hp ▸ hgt
      simp [List.filter_cons, hgt, hc, ih]
    · have hc : ¬ 1 < hashCount rs p.1 := hp ▸ hgt
      simp [List.filter_cons, hgt, hc, ih]

theorem completed_in_trace (h : Hasher) (K : Nat) (files : List ProcessedFileData)
    (gs : List DuplicateGroup) (hK : 1 ≤ K)
    (hmem : Msg.completed gs ∈ onmessage h K { type := "processFiles", files := files }) :
    gs = findDuplicates (flatResults h files) := by
  rw [onmessage_processFiles h K files hK] at hmem
  rcases List.mem_append.mp hmem with hm | hm
  · rcases List.mem_append.mp hm with hm | hm
    · simp only [progressMsgs, List.mem_map] at hm
      obtain ⟨p, _, hp⟩ := hm
      cases hp
    · rw [errorsEvent] at hm
      split at hm
      · simp only [List.mem_singleton] at hm
        cases hm
      · simp at hm
  · simp only [List.mem_singleton, Msg.completed.injEq] at hm
    exact hm

/-- C4: every duplicate group in the `completed` message holds at least two
files, and no group is emitted for a digest observed on exactly one
successfully hashed file; such singleton digests produce no group (and the
errors event, which only carries hashing failures, never mentions them
either — see the C6 theorem). -/
theorem group_minimality (h : Hasher) (K : Nat) (files : List ProcessedFileData)
    (gs : List DuplicateGroup) (x : String) (hK : 1 ≤ K)
    (hmem : Msg.completed gs ∈ onmessage h K { type := "processFiles", files := files })
    (hx : hashCount (flatResults h files) x = 1) :
    (∀ g ∈ gs, 2 ≤ g.files.length) ∧ ∀ g ∈ gs, g.hash ≠ x := by
  have hgs := completed_in_trace h K files gs hK hmem
  subst hgs
  constructor
  · intro g hg
    exact (mem_findDuplicates _ g hg).2
  · intro g hg heq
    obtain ⟨hmem2, hlen⟩ := mem_findDuplicates _ g hg
    have hval := (buildHashMap_value_eq _ g.hash g.files hmem2).1
    have : hashCount (flatResults h files) g.hash = g.files.length := by
      rw [hashCount, hval]
    rw [heq, hx] at this
    omega

/-- Witness for C4 over the demo batch: the digest of the unique file `p2`
occurs exactly once and heads no group. -/
theorem group_minimality_witness :
    (1 ≤ 50 ∧
      Msg.completed (findDuplicates (flatResults demoHasher demoFiles)) ∈
        onmessage demoHasher 50 { type := "processFiles", files := demoFiles } ∧
      hashCount (flatResults demoHasher demoFiles) "[1]" = 1) ∧
      ((∀ g ∈ findDuplicates (flatResults demoHasher demoFiles), 2 ≤ g.files.length) ∧
        ∀ g ∈ findDuplicates (flatResults demoHasher demoFiles), g.hash ≠ "[1]") :=
  ⟨⟨by decide, by decide, by decide⟩,
    group_minimality demoHasher 50 demoFiles _ "[1]" (by decide) (by decide) (by decide)⟩

/-- C5 counterexample: with hashed digests `a, b, b, a`, the second member
of `b` (position 2) precedes the second member of `a` (position 3), yet the
code labels the `a` group `group-0` and the `b` group `group-1`: groups are
not ordered by the position of each hash's second member, refuting the
claim at this input. -/
theorem group_order_counterexample :
    (findDuplicates cexC5).map (fun g => (g.id, g.hash)) =
        [("group-0", "a"), ("group-1", "b")] ∧
      secondOccurrencePos (cexC5.map (fun f => f.hash)) "a" = some 3 ∧
      secondOccurrencePos (cexC5.map (fun f => f.hash)) "b" = some 2 ∧
      ¬ orderedBySecondMember cexC5 (findDuplicates cexC5) := by
  decide

/-- C5 (amended): group ids are the sequential labels `group-0`, `group-1`, …
assigned at finalization time, and the groups are ordered by the position at
which each hash is first observed (the input position of each group's first
member) among the successfully hashed files — not by its second member. -/
theorem group_ids_sequential_first_seen (rs : List ProcessedFile) :
    (findDuplicates rs).map (fun g => g.id) =
        (List.range (findDuplicates rs).length).map (fun n => "group-" ++ toString n) ∧
      (findDuplicates rs).map (fun g => g.hash) =
        (firstSeenFrom [] (rs.map (fun f => f.hash))).filter
          (fun k => decide (1 < hashCount rs k)) := by
  constructor
  · have := finalizeGroups_ids (buildHashMap rs) 0
    simpa [findDuplicates] using this
  · have h1 : (findDuplicates rs).map (fun g => g.hash) =
        ((findDuplicates rs).map (fun g => (g.hash, g.files))).map Prod.fst := by
      simp [List.map_map, Function.comp]
    rw [h1, findDuplicates, finalizeGroups_hash_files,
      keys_filter_of_len rs _ (buildHashMap_value_length rs), buildHashMap_keys]

/-- C8: `hashFile` renders each byte of the SHA-256 digest of the entire
buffer as exactly two lowercase hexadecimal digits (zero-padded): it equals
the canonical two-digit encoding of the 32-byte digest, its output is 64
lowercase-hex characters, it is a function of the byte content alone
(identical bytes give identical digest strings, within and across runs),
and it is sensitive to the final byte of the buffer rather than to a
sampled prefix; the modelled digest matches the FIPS 180-4 test vector
for the bytes of `abc`. -/
theorem hashFile_spec (buf : List Nat) :
    hashFile buf =
        String.join ((sha256 buf).map
          (fun b => String.mk [hexDigit (b / 16), hexDigit (b % 16)])) ∧
      (sha256 buf).length = 32 ∧
      (∀ b ∈ sha256 buf, b < 256) ∧
      (hashFile buf).length = 64 ∧
      (∀ c ∈ (hashFile buf).data, c ∈ hexChars) ∧
      (∀ buf2, buf2 = buf → hashFile buf2 = hashFile buf) ∧
      hashFile (List.replicate 64 0) ≠ hashFile (List.replicate 63 0 ++ [1]) ∧
      hashFile [97, 98, 99] =
        "ba7816bf8f01cfea414140de5dae2223b00361a396177a9cb410ff61f20015ad" := by
  have henc : hashFile buf =
      String.join ((sha256 buf).map
        (fun b => String.mk [hexDigit (b / 16), hexDigit (b % 16)])) := by
    rw [hashFile]
    exact congrArg _ (List.map_congr_left (fun b _ => padStart2_jsToString16 b))
  refine ⟨henc, sha256_length buf, sha256_bytes_lt buf, ?_, ?_, ?_, ?_, ?_⟩
  · rw [henc, join_length_two, List.length_map, sha256_length]
    intro s hs
    simp only [List.mem_map] at hs
    obtain ⟨b, _, rfl⟩ := hs
    rfl
  · intro c hc
    rw [henc, join_data] at hc
    simp only [List.map_map, List.mem_flatten, List.mem_map, Function.comp] at hc
    obtain ⟨l, hl, hcl⟩ := hc
    obtain ⟨b, hb, rfl⟩ := hl
    have hb256 := sha256_bytes_lt buf b hb
    simp only [List.mem_cons, List.not_mem_nil, or_false] at hcl
    rcases hcl with hcl | hcl
    · exact hcl ▸ hexDigit_mem_hexChars (b / 16) (Nat.div_lt_of_lt_mul (by omega))
    · exact hcl ▸ hexDigit_mem_hexChars (b % 16) (Nat.mod_lt _ (by norm_num))
  · intro buf2 he
    rw [he]
  · decide
  · decide

/-! ## Accounting lemmas -/

theorem paths_perm (h : Hasher) (files : List ProcessedFileData) :
    ((flatResults h files).map (fun f => f.path) ++
        (flatErrors h files).map (fun e => e.path)).Perm
      (files.map (fun f => f.path)) := by
  induction files with
  | nil => simp [flatResults, flatErrors]
  | cons f rest ih =>
    simp only [flatResults, flatErrors, List.filterMap_cons, List.map_cons] at ih ⊢
    cases hf : h f with
    | ok s =>
      simp only [okFile, errFile, hf, List.map_cons]
      exact ih.cons _
    | error e =>
      simp only [okFile, errFile, hf, List.map_cons]
      exact List.perm_middle.trans (ih.cons f.path)

theorem addToMap_join_perm (f : ProcessedFile) :
    ∀ m, (((addToMap m f).map Prod.snd).flatten).Perm
      ((m.map Prod.snd).flatten ++ [f])
  | [] => by simp [addToMap]
  | (k, g) :: rest => by
    by_cases hk : k = f.hash
    · subst hk
      simp only [addToMap, eq_self_iff_true, if_true, List.map_cons, List.flatten_cons]
      have h1 : (g ++ [f]) ++ (rest.map Prod.snd).flatten =
          g ++ ([f] ++ (rest.map Prod.snd).flatten) := by
        rw [List.append_assoc]
      have h2 : (g ++ (rest.map Prod.snd).flatten) ++ [f] =
          g ++ ((rest.map Prod.snd).flatten ++ [f]) := by
        rw [List.append_assoc]
      rw [h1, h2]
      exact List.Perm.append_left g List.perm_append_comm
    · simp only [addToMap, if_neg hk, List.map_cons, List.flatten_cons]
      have h2 : (g ++ (rest.map Prod.snd).flatten) ++ [f] =
          g ++ ((rest.map Prod.snd).flatten ++ [f]) := by
        rw [List.append_assoc]
      rw [h2]
      exact List.Perm.append_left g (addToMap_join_perm f rest)

theorem foldl_join_perm :
    ∀ (fs : List ProcessedFile) (m : List (String × List ProcessedFile)),
      (((fs.foldl addToMap m).map Prod.snd).flatten).Perm
        ((m.map Prod.snd).flatten ++ fs)
  | [], m => by simp
  | f :: rest, m => by
    simp only [List.foldl_cons]
    refine (foldl_join_perm rest (addToMap m f)).trans ?_
    refine ((addToMap_join_perm f m).append_right rest).trans ?_
    rw [List.append_assoc]
    rfl

theorem buildHashMap_join_perm (rs : List ProcessedFile) :
    (((buildHashMap rs).map Prod.snd).flatten).Perm rs := by
  have := foldl_join_perm rs []
  simpa [buildHashMap] using this

theorem filter_flatten_eq (p : ProcessedFile → Bool) :
    ∀ (L : List (List ProcessedFile)),
      (L.flatten).filter p = (L.map (List.filter p)).flatten
  | [] => rfl
  | l :: rest => by
    simp [List.filter_append, filter_flatten_eq p rest]

theorem singleton_filter_eq (rs : List ProcessedFile) :
    ∀ (m : List (String × List ProcessedFile)),
      (∀ p ∈ m, p.2 = groupOf rs p.1 ∧ p.2 ≠ []) →
      ((m.map Prod.snd).flatten).filter (fun f => decide (hashCount rs f.hash = 1)) =
        ((m.filter (fun p => ! decide (1 < p.2.length))).map Prod.snd).flatten
  | [], _ => rfl
  | (k, g) :: rest, hm => by
    obtain ⟨hg0, hne0⟩ := hm (k, g) (List.mem_cons_self ..)
    have hg : g = groupOf rs k := hg0
    have hne : g ≠ [] := hne0
    have ih := singleton_filter_eq rs rest
      (fun q hq => hm q (List.mem_cons.mpr (Or.inr hq)))
    have hx : ∀ x ∈ g, x.hash = k := by
      intro x hxg
      rw [hg] at hxg
      have := List.mem_filter.mp hxg
      exact of_decide_eq_true this.2
    have hcnt : hashCount rs k = g.length := by
      rw [hashCount, ← hg]
    simp only [List.map_cons, List.flatten_cons, List.filter_append, List.filter_cons]
    by_cases hlen : 1 < g.length
    · have hfg : g.filter (fun f => decide (hashCount rs f.hash = 1)) = [] := by
        apply List.filter_eq_nil_iff.mpr
        intro x hxg
        rw [hx x hxg, hcnt]
        simp only [decide_eq_true_eq]
        omega
      simp [hfg, hlen, ih]
    · have hlen1 : g.length = 1 := by
        cases g with
        | nil => exact absurd rfl hne
        | cons a l =>
          simp only [List.length_cons] at hlen ⊢
          omega
      have hfg : g.filter (fun f => decide (hashCount rs f.hash = 1)) = g := by
        apply List.filter_eq_self.mpr
        intro x hxg
        rw [hx x hxg, hcnt, hlen1]
        simp
      simp [hfg, hlen, ih]

theorem group_singleton_perm (rs : List ProcessedFile) :
    ((((buildHashMap rs).filter (fun p => decide (1 < p.2.length))).map
        Prod.snd).flatten ++ singletonFiles rs).Perm rs := by
  have hvals : ∀ p ∈ buildHashMap rs, p.2 = groupOf rs p.1 ∧ p.2 ≠ [] := by
    intro p hp
    have hmem : (p.1, p.2) ∈ buildHashMap rs := by
      rw [Prod.mk.eta]
      exact hp
    exact buildHashMap_value_eq rs p.1 p.2 hmem
  have hsf : (((buildHashMap rs).map Prod.snd).flatten).filter
      (fun f => decide (hashCount rs f.hash = 1)) =
        (((buildHashMap rs).filter (fun p => ! decide (1 < p.2.length))).map
          Prod.snd).flatten :=
    singleton_filter_eq rs (buildHashMap rs) hvals
  have hperm1 : (singletonFiles rs).Perm
      ((((buildHashMap rs).filter (fun p => ! decide (1 < p.2.length))).map
        Prod.snd).flatten) := by
    rw [← hsf, singletonFiles]
    exact ((buildHashMap_join_perm rs).filter _).symm
  refine ((List.Perm.refl _).append hperm1).trans ?_
  rw [← List.flatten_append, ← List.map_append]
  refine (((List.filter_append_perm _ (buildHashMap rs)).map Prod.snd).flatten.trans ?_)
  exact buildHashMap_join_perm rs

theorem groupPaths_eq (rs : List ProcessedFile) :
    groupPaths (findDuplicates rs) =
      ((((buildHashMap rs).filter (fun p => decide (1 < p.2.length))).map
        Prod.snd).flatten).map (fun f => f.path) := by
  have hfiles : (findDuplicates rs).map (fun g => g.files) =
      ((buildHashMap rs).filter (fun p => decide (1 < p.2.length))).map Prod.snd := by
    have h1 : (findDuplicates rs).map (fun g => g.files) =
        ((findDuplicates rs).map (fun g => (g.hash, g.files))).map Prod.snd := by
      simp [List.map_map, Function.comp]
    rw [h1, findDuplicates, finalizeGroups_hash_files]
  rw [groupPaths, List.map_flatten, ← hfiles, List.map_map]
  rfl

/-- C1: over any input batch with pairwise-distinct paths, the paths inside
the emitted duplicate groups, the paths of the singleton (unique-digest)
hashed files, and the paths of the recorded errors together form a
permutation of the input paths, and every input path is counted exactly
once across the three sets — they are pairwise disjoint and exhaustive. -/
theorem exhaustive_accounting (h : Hasher) (K : Nat) (files : List ProcessedFileData)
    (hK : 1 ≤ K) (hnd : (files.map (fun f => f.path)).Nodup) :
    ((groupPaths (findDuplicates ((processFilesWithHashesInChunks h K files).2.1)) ++
        singletonPaths ((processFilesWithHashesInChunks h K files).2.1) ++
        errorPaths ((processFilesWithHashesInChunks h K files).2.2)).Perm
      (files.map (fun f => f.path))) ∧
      ∀ p ∈ files.map (fun f => f.path),
        (groupPaths (findDuplicates ((processFilesWithHashesInChunks h K files).2.1))).count p +
          (singletonPaths ((processFilesWithHashesInChunks h K files).2.1)).count p +
          (errorPaths ((processFilesWithHashesInChunks h K files).2.2)).count p = 1 := by
  have hR : (processFilesWithHashesInChunks h K files).2.1 = flatResults h files := by
    rw [processFiles_eq h K files hK]
  have hE : (processFilesWithHashesInChunks h K files).2.2 = flatErrors h files := by
    rw [processFiles_eq h K files hK]
  rw [hR, hE]
  have hperm : ((groupPaths (findDuplicates (flatResults h files)) ++
      singletonPaths (flatResults h files)) ++
      errorPaths (flatErrors h files)).Perm (files.map (fun f => f.path)) := by
    refine List.Perm.trans ?_ (paths_perm h files)
    refine List.Perm.append ?_ (List.Perm.refl _)
    rw [groupPaths_eq, singletonPaths, ← List.map_append]
    exact (group_singleton_perm (flatResults h files)).map _
  constructor
  · exact hperm
  · intro p hp
    have hcnt := hperm.count_eq p
    rw [List.count_append, List.count_append] at hcnt
    have h1 : (files.map (fun f => f.path)).count p = 1 :=
      List.count_eq_one_of_mem hnd hp
    omega

/-- Witness for C1 over the demo batch (a duplicate pair, a singleton and a
failing file, with distinct paths). -/
theorem exhaustive_accounting_witness :
    (1 ≤ 50 ∧ (demoFiles.map (fun f => f.path)).Nodup) ∧
      (((groupPaths (findDuplicates ((processFilesWithHashesInChunks demoHasher 50 demoFiles).2.1)) ++
          singletonPaths ((processFilesWithHashesInChunks demoHasher 50 demoFiles).2.1) ++
          errorPaths ((processFilesWithHashesInChunks demoHasher 50 demoFiles).2.2)).Perm
        (demoFiles.map (fun f => f.path))) ∧
        ∀ p ∈ demoFiles.map (fun f => f.path),
          (groupPaths (findDuplicates ((processFilesWithHashesInChunks demoHasher 50 demoFiles).2.1))).count p +
            (singletonPaths ((processFilesWithHashesInChunks demoHasher 50 demoFiles).2.1)).count p +
            (errorPaths ((processFilesWithHashesInChunks demoHasher 50 demoFiles).2.2)).count p = 1) :=
  ⟨⟨by decide, by decide⟩,
    exhaustive_accounting demoHasher 50 demoFiles (by decide) (by decide)⟩

end DupFinder
